import Mathlib

/-!
Verification development for the probabilistic gene-module clustering core
of `method2.py` (UnPaSt).  The Python source is shallowly embedded:

* samples are indexed by `Fin N`, genes and modules by `Fin K`;
* the binary gene-to-sample matrix `gene2Samples` is a parameter
  `G : Fin K → Fin N → ℤ`;
* log-probabilities are real numbers, numpy integer arrays are `ℤ`-valued
  functions;
* the mutable sampler state (`gene2Module`, `nOnesPerPatientInModules`,
  `moduleSizes`, `LP`) is a structure, and in-place mutation becomes
  construction of an updated structure;
* the empirical transition tables of the convergence monitor are rational
  valued and fully computable.
-/

/-! ## Likelihood engine (`calc_lp`, `calc_lp_formula`, `calc_lp_column`) -/

/-- `p0 = N*np.log(0.5)+np.log(beta_K)` from `set_initial_conditions`. -/
noncomputable def p0 (N : ℕ) (beta_K : ℝ) : ℝ :=
  (N : ℝ) * Real.log (1 / 2) + Real.log beta_K

/-- `match_score = np.log((alpha*0.5+1)/(alpha))` from `set_initial_conditions`. -/
noncomputable def match_score (alpha : ℝ) : ℝ :=
  Real.log ((alpha * (1 / 2) + 1) / alpha)

/-- `mismatch_score = np.log((alpha*0.5+0)/alpha)` from `set_initial_conditions`. -/
noncomputable def mismatch_score (alpha : ℝ) : ℝ :=
  Real.log ((alpha * (1 / 2) + 0) / alpha)

/-- `bK_1 = math.log(1+beta_K)` from `set_initial_conditions`. -/
noncomputable def bK_1 (beta_K : ℝ) : ℝ :=
  Real.log (1 + beta_K)

/-- The per-sample ratio `(n_ones_per_pat+alpha/2)/(m_size+alpha)` of
`calc_lp_formula`. -/
noncomputable def oneRatio (alpha : ℝ) (n1 : ℤ) (msize : ℤ) : ℝ :=
  ((n1 : ℝ) + alpha / 2) / ((msize : ℝ) + alpha)

/-- `calc_lp_formula`: the general-case log-affinity of a gene with indicator
vector `gv` to a module with aggregate one-counts `n1` and size `msize`. -/
noncomputable def calc_lp_formula {N : ℕ} (alpha beta_K : ℝ)
    (n1 : Fin N → ℤ) (msize : ℤ) (gv : Fin N → ℤ) : ℝ :=
  (∑ s, if gv s = 1 then Real.log (oneRatio alpha (n1 s) msize) else 0)
    + (∑ s, if gv s = 0 then Real.log (1 - oneRatio alpha (n1 s) msize) else 0)
    + Real.log ((msize : ℝ) + beta_K)

/-- The single-member-module closed form of `calc_lp`:
`n_matches = np.sum(n_ones_per_pat[gene_vector==1])`, then
`n_matches*match_score + (N-n_matches)*mismatch_score + bK_1`. -/
noncomputable def lpSingleGene (N : ℕ) (alpha beta_K : ℝ)
    (n1 : Fin N → ℤ) (gv : Fin N → ℤ) : ℝ :=
  ((∑ s, if gv s = 1 then n1 s else 0 : ℤ) : ℝ) * match_score alpha
    + ((N : ℝ) - ((∑ s, if gv s = 1 then n1 s else 0 : ℤ) : ℝ)) * mismatch_score alpha
    + bK_1 beta_K

/-- `calc_lp(gene_ndx, module_ndx, ...)`: single-pair log-affinity.  Mirrors the
source exactly: empty module returns `p0`; when `gene_ndx == module_ndx` the
gene is removed from its own module (baseline if that empties it, otherwise
reduced size and counts); a single-member module uses the closed form;
otherwise the general formula. -/
noncomputable def calc_lp {K N : ℕ} (G : Fin K → Fin N → ℤ) (alpha beta_K : ℝ)
    (g m : Fin K) (nOnes : Fin K → Fin N → ℤ) (sizes : Fin K → ℤ) : ℝ :=
  if sizes m = 0 then p0 N beta_K
  else if g = m then
    if sizes m = 1 then p0 N beta_K
    else if sizes m - 1 = 1 then
      lpSingleGene N alpha beta_K (fun s => nOnes m s - G g s) (G g)
    else calc_lp_formula alpha beta_K (fun s => nOnes m s - G g s) (sizes m - 1) (G g)
  else if sizes m = 1 then lpSingleGene N alpha beta_K (nOnes m) (G g)
  else calc_lp_formula alpha beta_K (nOnes m) (sizes m) (G g)

/-- `calc_lp_column(module_ndx, ...)`: the batched column.  An empty module
yields the broadcast scalar `p0`; a single-member module uses
`n_matches = np.dot(gene2Samples, n_ones_per_pat)` per gene; otherwise the
batched general formula; finally the entry at the module's own index is
overwritten with the single-pair `calc_lp(module_ndx, module_ndx, ...)`. -/
noncomputable def calc_lp_column {K N : ℕ} (G : Fin K → Fin N → ℤ) (alpha beta_K : ℝ)
    (m : Fin K) (nOnes : Fin K → Fin N → ℤ) (sizes : Fin K → ℤ) : Fin K → ℝ :=
  fun g =>
    if sizes m = 0 then p0 N beta_K
    else if g = m then calc_lp G alpha beta_K m m nOnes sizes
    else if sizes m = 1 then
      ((∑ s, G g s * nOnes m s : ℤ) : ℝ) * match_score alpha
        + ((N : ℝ) - ((∑ s, G g s * nOnes m s : ℤ) : ℝ)) * mismatch_score alpha
        + bK_1 beta_K
    else calc_lp_formula alpha beta_K (nOnes m) (sizes m) (G g)

/-! ## Sampler state, `apply_changes`, `set_initial_conditions` -/

/-- The mutable state threaded through `sampling`: module labels, aggregate
one-counts, module sizes, and the affinity matrix `LP`.  The immutable
`gene2Samples` matrix is a separate parameter `G`. -/
structure MState (K N : ℕ) where
  gene2Module : Fin K → Fin K
  nOnes : Fin K → Fin N → ℤ
  moduleSizes : Fin K → ℤ
  LP : Fin K → Fin K → ℝ

/-- `apply_changes`: relabel the gene, move its indicator vector from
`curr`'s aggregates to `new`'s, adjust both sizes, and (when `calcLPs`)
recompute the two affected `LP` columns while restoring the moved gene's own
two entries to their pre-move values (the `ndx_old_val` dance in the source). -/
noncomputable def apply_changes {K N : ℕ} (G : Fin K → Fin N → ℤ) (alpha beta_K : ℝ)
    (s : MState K N) (g new curr : Fin K) (calcLPs : Bool) : MState K N :=
  let g2M := fun i => if i = g then new else s.gene2Module i
  let n1 := fun m smp => if m = curr then s.nOnes m smp - G g smp else s.nOnes m smp
  let n2 := fun m smp => if m = new then n1 m smp + G g smp else n1 m smp
  let sz1 := fun m => if m = curr then s.moduleSizes m - 1 else s.moduleSizes m
  let sz2 := fun m => if m = new then sz1 m + 1 else sz1 m
  let lp2 :=
    match calcLPs with
    | false => s.LP
    | true =>
      let colC := calc_lp_column G alpha beta_K curr n2 sz2
      let lp1 := fun i j => if j = curr ∧ i ≠ g then colC i else s.LP i j
      let colN := calc_lp_column G alpha beta_K new n2 sz2
      fun i j => if j = new ∧ i ≠ g then colN i else lp1 i j
  ⟨g2M, n2, sz2, lp2⟩

/-- `set_initial_conditions`: one gene per module, sizes all one,
`nOnesPerSampleInModules` a copy of `gene2Samples`, and the full `LP` matrix
filled for `j ≥ i` by `calc_lp` and mirrored for `j < i`. -/
noncomputable def initialState {K N : ℕ} (G : Fin K → Fin N → ℤ)
    (alpha beta_K : ℝ) : MState K N :=
  ⟨fun i => i, G, fun _ => 1,
   fun i j =>
     if (i : ℕ) ≤ (j : ℕ) then calc_lp G alpha beta_K i j G (fun _ => 1)
     else calc_lp G alpha beta_K j i G (fun _ => 1)⟩

/-- States reachable during sampling: the initial state, plus one
`apply_changes` per accepted per-gene move.  The sampler only applies a move
when the drawn module differs from the current one, with
`curr_module = gene2Module[gene_ndx]` and `calc_LPs=True`. -/
inductive SReach {K N : ℕ} (G : Fin K → Fin N → ℤ) (alpha beta_K : ℝ) :
    MState K N → Prop
  | init : SReach G alpha beta_K (initialState G alpha beta_K)
  | step (s : MState K N) (hs : SReach G alpha beta_K s) (g new : Fin K)
      (hne : new ≠ s.gene2Module g) :
      SReach G alpha beta_K (apply_changes G alpha beta_K s g new (s.gene2Module g) true)

/-- States reachable during sampling or during the consensus reconciliation
(`get_consensus_modules` reuses `apply_changes` with `calc_LPs=False` and
arbitrary gene/current-module arguments). -/
inductive Reach {K N : ℕ} (G : Fin K → Fin N → ℤ) (alpha beta_K : ℝ) :
    MState K N → Prop
  | init : Reach G alpha beta_K (initialState G alpha beta_K)
  | step (s : MState K N) (hs : Reach G alpha beta_K s) (g new : Fin K)
      (hne : new ≠ s.gene2Module g) :
      Reach G alpha beta_K (apply_changes G alpha beta_K s g new (s.gene2Module g) true)
  | cstep (s : MState K N) (hs : Reach G alpha beta_K s) (g new curr : Fin K) :
      Reach G alpha beta_K (apply_changes G alpha beta_K s g new curr false)

/-- The number of genes currently labelled `m`, as an integer. -/
def moduleCount {K N : ℕ} (s : MState K N) (m : Fin K) : ℤ :=
  ∑ i, if s.gene2Module i = m then 1 else 0

/-- Spec-side comparison definition for the self-exclusion rule of §4.1:
the affinity of gene `g` to module `m` computed with `g`'s contribution
removed — reduced size `sizes m - 1`, indicator vector subtracted from the
one-counts, baseline `p0` if the removal empties the module. -/
noncomputable def affinity_excluding {K N : ℕ} (G : Fin K → Fin N → ℤ)
    (alpha beta_K : ℝ) (g m : Fin K)
    (nOnes : Fin K → Fin N → ℤ) (sizes : Fin K → ℤ) : ℝ :=
  if sizes m - 1 = 0 then p0 N beta_K
  else if sizes m - 1 = 1 then
    lpSingleGene N alpha beta_K (fun s => nOnes m s - G g s) (G g)
  else calc_lp_formula alpha beta_K (fun s => nOnes m s - G g s) (sizes m - 1) (G g)

/-- Spec-side comparison definition: the affinity of gene `g` to module `m`
computed from the aggregates as they are, with no self-removal. -/
noncomputable def affinity_plain {K N : ℕ} (G : Fin K → Fin N → ℤ)
    (alpha beta_K : ℝ) (g m : Fin K)
    (nOnes : Fin K → Fin N → ℤ) (sizes : Fin K → ℤ) : ℝ :=
  if sizes m = 0 then p0 N beta_K
  else if sizes m = 1 then lpSingleGene N alpha beta_K (nOnes m) (G g)
  else calc_lp_formula alpha beta_K (nOnes m) (sizes m) (G g)

/-! ## Probability normalization (`adjust_lp`) -/

/-- Python `max(list)` (the default `d` is only used for the empty list,
on which Python `max` would raise). -/
def listMaxD {A : Type} [LinearOrder A] (d : A) : List A → A
  | [] => d
  | x :: xs => xs.foldl max x

/-- Python `min(list)` (default `d` for the empty list, as in `listMaxD`). -/
def listMinD {A : Type} [LinearOrder A] (d : A) : List A → A
  | [] => d
  | x :: xs => xs.foldl min x

/-- `adjust_lp(log_probs, n_exp_orders)`: shift by the row maximum, zero the
entries more than `n_exp_orders` natural-log units below it, exponentiate the
rest, and renormalize to sum one. -/
noncomputable def adjust_lp (l : List ℝ) (nExpOrders : ℝ) : List ℝ :=
  let maxP := listMaxD 0 l
  let probs := l.map fun lp => if -nExpOrders ≤ lp - maxP then Real.exp (lp - maxP) else 0
  probs.map fun x => x / probs.sum

/-- The intermediate (pre-normalization) vector of `adjust_lp` at the default
cutoff of 7 natural-log orders. -/
noncomputable def adjProbs (l : List ℝ) : List ℝ :=
  l.map fun lp =>
    if -(7 : ℝ) ≤ lp - listMaxD 0 l then Real.exp (lp - listMaxD 0 l) else 0

/-! ## Convergence monitor: transition tables (`calc_p_transitions`) -/

/-- Consecutive pairs of a state sequence: `zip(states, states[1:])`. -/
def pairsOf (states : List ℕ) : List (ℕ × ℕ) :=
  states.zip states.tail

/-- `transitions[(a,b)]` of `calc_p_transitions`: the number of indices `i`
with `states[i] = a` and `states[i+1] = b`. -/
def transCount (states : List ℕ) (a b : ℕ) : ℕ :=
  (pairsOf states).count (a, b)

/-- Occurrences of `a` at a non-final position of the window (i.e. as a
predecessor). -/
def predCount (states : List ℕ) (a : ℕ) : ℕ :=
  states.dropLast.count a

/-- The normalized transition table entry of `calc_p_transitions`:
`transitions[(a,b)] / counts[unique.index(a)]`, where `counts` comes from
`np.unique(states, return_counts=True)` — the count of `a` anywhere in the
window, the final position included. -/
def transP (states : List ℕ) (a b : ℕ) : ℚ :=
  (transCount states a b : ℚ) / (states.count a : ℚ)

/-! ## Convergence monitor: skipping edges and window control -/

/-- The label trajectory of gene `g` across the snapshots `labels`. -/
def columnOf (labels : List (List ℕ)) (g : ℕ) : List ℕ :=
  labels.map fun row => row.getD g 0

/-- A gene enters `collect_all_p`'s table precisely when its trajectory shows
more than one distinct value (`len(unique) > 1`). -/
def isSkipping (labels : List (List ℕ)) (g : ℕ) : Bool :=
  decide (1 < (columnOf labels g).dedup.length)

/-- `len(collect_all_p(labels).keys())`: the number of skipping genes among
`0..Kn-1`. -/
def nSkippingEdges (Kn : ℕ) (labels : List (List ℕ)) : ℕ :=
  ((List.range Kn).filter fun g => isSkipping labels g).length

/-- The step loop of `sampling`, abstracted over the verdict
`conv step` of `check_convergence_conditions`: starting at `step`, with
`streak` consecutive locally-convergent steps so far, run `fuel` more steps.
The local verdict only applies once `step ≥ n_steps_averaged + n_points_fit`;
a full streak of `n_steps_for_convergence` returns the convergent window
`n_points_fit + n_steps_for_convergence`; running out of steps returns the
non-convergent window `n_steps_for_convergence`. -/
def samplingGo (conv : ℕ → Bool) (nAvg nFit nConv : ℕ) :
    ℕ → ℕ → ℕ → ℕ × Bool
  | 0, _, _ => (nConv, false)
  | fuel + 1, step, streak =>
    let isConv := decide (nAvg + nFit ≤ step) && conv step
    let streak2 := if isConv then streak + 1 else 0
    if streak2 = nConv then (nFit + nConv, true)
    else samplingGo conv nAvg nFit nConv fuel (step + 1) streak2

/-- The returned `(n_final_steps, is_converged)` of `sampling`:
`for step in range(1, max_n_steps)` runs `max_n_steps - 1` iterations from
step 1 with an empty streak. -/
def samplingFinalSteps (conv : ℕ → Bool) (maxSteps nAvg nFit nConv : ℕ) : ℕ × Bool :=
  samplingGo conv nAvg nFit nConv (maxSteps - 1) 1 0

/-- A convergence verdict that never certifies a step. -/
def convNever : ℕ → Bool := fun _ => false

/-! ## Consensus builder (`get_consensus_modules`) -/

/-- Insert a value into an ascending list, keeping it ascending. -/
def insertSorted (x : ℕ) : List ℕ → List ℕ
  | [] => [x]
  | y :: ys => if x ≤ y then x :: y :: ys else y :: insertSorted x ys

/-- Insertion sort on natural numbers. -/
def sortNat : List ℕ → List ℕ
  | [] => []
  | x :: xs => insertSorted x (sortNat xs)

/-- `np.unique(states)`: the distinct values of `l` in ascending order. -/
def uniqueSorted (l : List ℕ) : List ℕ :=
  sortNat l.dedup

/-- `unique[np.argmax(counts)]`: the pair with the greatest count, the
earliest such pair on ties (numpy `argmax` returns the first maximum). -/
def pickMax : List (ℕ × ℕ) → ℕ × ℕ
  | [] => (0, 0)
  | p :: ps =>
    let q := pickMax ps
    if p.2 < q.2 then q else p

/-- The per-gene majority vote of `get_consensus_modules`: with a single
observed label return it, otherwise the label of greatest count, ties to the
lowest label. -/
def consensusOf (l : List ℕ) : ℕ :=
  if (uniqueSorted l).length ≤ 1 then (uniqueSorted l).headD 0
  else (pickMax ((uniqueSorted l).map fun v => (v, l.count v))).1

/-- `max(counts)` over the distinct labels of the window. -/
def maxCountOf (l : List ℕ) : ℕ :=
  listMaxD 0 ((uniqueSorted l).map fun v => l.count v)

/-- The diagnostic condition of `get_consensus_modules`: the warning is
printed only in the oscillating branch and only when
`float(max(counts))/len(window) < 0.5` holds strictly. -/
def warnOf (l : List ℕ) : Bool :=
  decide (1 < (uniqueSorted l).length) && decide (2 * maxCountOf l < l.length)

/-- The reconciliation loop of `get_consensus_modules`: for each position `m`,
if the live label `gene2Module[m]` differs from `consensus[m]`, call
`apply_changes` with `calc_LPs=False` — passing the *stale* Python loop
variable `gene_ndx`, which after the first loop equals `K - 1`, as the gene
to move (the slip at line 570 of the source). -/
noncomputable def reconcile {K N : ℕ} (G : Fin K → Fin N → ℤ) (alpha beta_K : ℝ)
    (hK : 0 < K) (c : Fin K → Fin K) (s : MState K N) : MState K N :=
  (List.finRange K).foldl
    (fun st m =>
      if st.gene2Module m ≠ c m then
        apply_changes G alpha beta_K st ⟨K - 1, Nat.sub_lt hK Nat.one_pos⟩ (c m)
          (st.gene2Module m) false
      else st)
    s

/-! ## Concrete instances used by the counterexamples -/

/-- A concrete 2-gene, 1-sample binary matrix: gene 0 is `[1]`, gene 1 is
`[0]`. -/
def Gc : Fin 2 → Fin 1 → ℤ := fun g _ => if g = 0 then 1 else 0

/-- The initial state for `Gc` with `alpha = 2`, `beta_K = 1`. -/
noncomputable def sInit : MState 2 1 := initialState Gc 2 1

/-- After the move of gene 0 to module 1 (first sampled move). -/
noncomputable def sA : MState 2 1 :=
  apply_changes Gc 2 1 sInit 0 1 (sInit.gene2Module 0) true

/-- After the further move of gene 1 to module 0. -/
noncomputable def sB : MState 2 1 :=
  apply_changes Gc 2 1 sA 1 0 (sA.gene2Module 1) true

/-- After the further move of gene 0 back to module 0; this empties module 1,
whose last member was gene 0. -/
noncomputable def sC : MState 2 1 :=
  apply_changes Gc 2 1 sB 0 0 (sB.gene2Module 0) true

/-- A concrete three-snapshot history for the consensus builder: gene 0 always
in module 0, gene 1 always in module 1. -/
def histC : List (List ℕ) := [[0, 1], [0, 1], [0, 1]]

/-- The majority consensus of `histC` as a function. -/
def cC : Fin 2 → Fin 2 := fun g => if g = 0 then 0 else 1

/-! ## Theorems -/

/-- Auxiliary: the step loop returns either the non-convergent pair
`(nConv, false)` or the convergent pair `(nFit + nConv, true)`. -/
theorem samplingGo_cases (conv : ℕ → Bool) (nAvg nFit nConv : ℕ) :
    ∀ fuel step streak,
      samplingGo conv nAvg nFit nConv fuel step streak = (nConv, false)
      ∨ samplingGo conv nAvg nFit nConv fuel step streak = (nFit + nConv, true) := by
  intro fuel
  induction fuel with
  | zero => intro step streak; left; rfl
  | succ n ih =>
    intro step streak
    simp only [samplingGo]
    by_cases h :
        (if (decide (nAvg + nFit ≤ step) && conv step) = true then streak + 1 else 0) = nConv
    · rw [if_pos h]; right; rfl
    · rw [if_neg h]; exact ih _ _

/-- C6 (counterexample): with a verdict that never certifies convergence and
`max_n_steps = 3`, `n_points_fit = 10`, `n_steps_for_convergence = 5`, the
loop stops non-converged and reports a window of `5`, not the
`n_points_fit + n_steps_for_convergence = 15` the claim asserts. -/
theorem c6_counterexample :
    (samplingFinalSteps convNever 3 20 10 5).2 = false
    ∧ (samplingFinalSteps convNever 3 20 10 5).1 ≠ 10 + 5 := by decide

/-- C6 (amended): whenever `sampling` stops because `max_n_steps` is reached
without global convergence, the reported trailing-window size is
`n_steps_for_convergence` alone — smaller than the
`n_points_fit + n_steps_for_convergence` window reported on convergence. -/
theorem c6_window_on_nonconvergence (conv : ℕ → Bool)
    (maxSteps nAvg nFit nConv : ℕ)
    (h : (samplingFinalSteps conv maxSteps nAvg nFit nConv).2 = false) :
    (samplingFinalSteps conv maxSteps nAvg nFit nConv).1 = nConv := by
  rcases samplingGo_cases conv nAvg nFit nConv (maxSteps - 1) 1 0 with hc | hc
  · unfold samplingFinalSteps
    rw [hc]
  · exfalso
    unfold samplingFinalSteps at h
    rw [hc] at h
    simp at h

/-- C6 (witness): the amended theorem applied to the concrete non-convergent
run of `c6_counterexample`. -/
theorem c6_window_on_nonconvergence_witness :
    (samplingFinalSteps convNever 3 20 10 5).1 = 5 :=
  c6_window_on_nonconvergence convNever 3 20 10 5 (by decide)

/-- Auxiliary: summing the indicator of `p = (a, b)` over the possible second
components `b` yields the indicator of `p.1 = a`. -/
theorem sum_ite_eq_pair (a : ℕ) (p : ℕ × ℕ) (s : Finset ℕ) (hp : p.2 ∈ s) :
    (∑ b ∈ s, if p = (a, b) then (1 : ℕ) else 0) = if p.1 = a then 1 else 0 := by
  rcases p with ⟨x, y⟩
  by_cases hxa : x = a
  · subst hxa
    have hterm : ∀ b ∈ s, (if (x, y) = (x, b) then (1 : ℕ) else 0) = if y = b then 1 else 0 := by
      intro b _
      by_cases hb : y = b
      · simp [hb]
      · simp [hb, Prod.mk.injEq]
    rw [Finset.sum_congr rfl hterm, Finset.sum_ite_eq s y fun _ => (1 : ℕ)]
    simp [hp]
  · have hterm : ∀ b ∈ s, (if (x, y) = (a, b) then (1 : ℕ) else 0) = 0 := by
      intro b _
      simp [Prod.mk.injEq, hxa]
    rw [Finset.sum_congr rfl hterm]
    simp [hxa]

/-- Auxiliary: the counts of the pairs `(a, b)` over all `b` in a set covering
the second components add up to the number of pairs whose first component is
`a`. -/
theorem sum_count_pairs (a : ℕ) :
    ∀ (l : List (ℕ × ℕ)) (s : Finset ℕ), (∀ p ∈ l, p.2 ∈ s) →
      (∑ b ∈ s, l.count (a, b)) = l.countP (fun p => p.1 == a) := by
  intro l
  induction l with
  | nil => intro s _; simp
  | cons p t ih =>
    intro s hs
    have hp2 := hs p (List.mem_cons_self p t)
    have ht := fun q hq => hs q (List.mem_cons_of_mem p hq)
    have hstep : ∀ b : ℕ, (p :: t).count (a, b) = t.count (a, b) + if p = (a, b) then 1 else 0 := by
      intro b
      rw [List.count_cons]
      congr 1
      by_cases h : p = (a, b)
      · simp [h]
      · simp [h, Ne.symm h]
    calc (∑ b ∈ s, (p :: t).count (a, b))
        = (∑ b ∈ s, t.count (a, b)) + ∑ b ∈ s, (if p = (a, b) then 1 else 0) := by
          rw [← Finset.sum_add_distrib]
          exact Finset.sum_congr rfl fun b _ => hstep b
      _ = t.countP (fun q => q.1 == a) + (if p.1 = a then 1 else 0) := by
          rw [ih s ht, sum_ite_eq_pair a p s hp2]
      _ = (p :: t).countP (fun q => q.1 == a) := by
          rw [List.countP_cons]
          congr 1
          by_cases h : p.1 = a
          · simp [h]
          · simp [h]

/-- Auxiliary: the first components of the consecutive pairs of a list are the
list without its final element. -/
theorem pairsOf_map_fst : ∀ l : List ℕ, (pairsOf l).map Prod.fst = l.dropLast := by
  intro l
  induction l with
  | nil => rfl
  | cons x t ih =>
    cases t with
    | nil => rfl
    | cons y u =>
      have ihe : ((y :: u).zip u).map Prod.fst = (y :: u).dropLast := ihe_aux ih
      simp only [pairsOf, List.tail_cons, List.zip_cons_cons, List.map_cons]
      rw [ihe]
      rfl
where
  ihe_aux {y : ℕ} {u : List ℕ} (h : (pairsOf (y :: u)).map Prod.fst = (y :: u).dropLast) :
      ((y :: u).zip u).map Prod.fst = (y :: u).dropLast := h

/-- Auxiliary: the predecessor count equals the number of consecutive pairs
starting at `a`. -/
theorem predCount_eq_countP (l : List ℕ) (a : ℕ) :
    predCount l a = (pairsOf l).countP (fun p => p.1 == a) := by
  rw [predCount, ← pairsOf_map_fst l]
  rw [List.count_eq_countP, List.countP_map]
  rfl

/-- C5 (counterexample): for the window `[0, 1, 0]`, module 0 occurs as a
predecessor, but the code's table entry `p[(0,1)] = 1/2` is normalized by the
total occurrence count 2 of module 0 (the final position included), not by its
predecessor count 1 as the claim states; accordingly module 0's outgoing
probabilities sum to `1/2`, not 1. -/
theorem c5_counterexample :
    transP [0, 1, 0] 0 1 ≠ (transCount [0, 1, 0] 0 1 : ℚ) / (predCount [0, 1, 0] 0 : ℚ)
    ∧ (0 ∈ ([0, 1, 0] : List ℕ).dropLast)
    ∧ ∑ b ∈ ([0, 1, 0] : List ℕ).toFinset, transP [0, 1, 0] 0 b ≠ 1 := by
  have h1 : transCount [0, 1, 0] 0 1 = 1 := by decide
  have h2 : ([0, 1, 0] : List ℕ).count 0 = 2 := by decide
  have h3 : predCount [0, 1, 0] 0 = 1 := by decide
  have h4 : transCount [0, 1, 0] 0 0 = 0 := by decide
  have hset : ([0, 1, 0] : List ℕ).toFinset = {0, 1} := by decide
  refine ⟨?_, by decide, ?_⟩
  · rw [transP, h1, h2, h3]
    norm_num
  · rw [hset, Finset.sum_insert (by decide), Finset.sum_singleton]
    rw [transP, transP, h4, h1, h2]
    norm_num

/-- C5 (amended): each table entry is the pair count divided by the total
occurrence count of the previous module anywhere in the window; consequently,
for every module value occurring in the window, its outgoing probabilities sum
to (predecessor occurrences)/(total occurrences) — which is 1 exactly when the
module does not occupy the final position. -/
theorem c5_outgoing_sum (states : List ℕ) (a : ℕ) (ha : a ∈ states) :
    ∑ b ∈ states.toFinset, transP states a b
      = (predCount states a : ℚ) / (states.count a : ℚ) := by
  unfold transP
  rw [← Finset.sum_div]
  congr 1
  rw [← Nat.cast_sum]
  norm_cast
  rw [predCount_eq_countP]
  apply sum_count_pairs
  intro p hp
  rw [List.mem_toFinset]
  exact List.mem_of_mem_tail (List.of_mem_zip hp).2

/-- C5 (witness): the amended theorem evaluated on the window `[0, 1, 0]`. -/
theorem c5_outgoing_sum_witness :
    ∑ b ∈ ([0, 1, 0] : List ℕ).toFinset, transP [0, 1, 0] 0 b
      = (predCount [0, 1, 0] 0 : ℚ) / (([0, 1, 0] : List ℕ).count 0 : ℚ) :=
  c5_outgoing_sum [0, 1, 0] 0 (by decide)

/-- Auxiliary: inserting permutes to consing. -/
theorem insertSorted_perm (x : ℕ) : ∀ l : List ℕ, List.Perm (insertSorted x l) (x :: l) := by
  intro l
  induction l with
  | nil => exact List.Perm.refl _
  | cons y ys ih =>
    rw [insertSorted]
    by_cases h : x ≤ y
    · rw [if_pos h]
    · rw [if_neg h]
      exact List.Perm.trans (List.Perm.cons y ih) (List.Perm.swap x y ys)

/-- Auxiliary: insertion sort permutes its input. -/
theorem sortNat_perm : ∀ l : List ℕ, List.Perm (sortNat l) l := by
  intro l
  induction l with
  | nil => exact List.Perm.refl _
  | cons x xs ih =>
    rw [sortNat]
    exact (insertSorted_perm x (sortNat xs)).trans (List.Perm.cons x ih)

/-- Auxiliary: inserting into an ascending list keeps it ascending. -/
theorem insertSorted_sorted (x : ℕ) :
    ∀ l : List ℕ, List.Sorted (· ≤ ·) l → List.Sorted (· ≤ ·) (insertSorted x l) := by
  intro l
  induction l with
  | nil => intro _; simp [insertSorted]
  | cons y ys ih =>
    intro hs
    rw [List.sorted_cons] at hs
    rw [insertSorted]
    by_cases h : x ≤ y
    · rw [if_pos h, List.sorted_cons]
      refine ⟨?_, by rw [List.sorted_cons]; exact hs⟩
      intro b hb
      rcases List.mem_cons.mp hb with rfl | hb2
      · exact h
      · exact h.trans (hs.1 b hb2)
    · rw [if_neg h, List.sorted_cons]
      refine ⟨?_, ih hs.2⟩
      intro b hb
      have hb2 : b ∈ x :: ys := (insertSorted_perm x ys).mem_iff.mp hb
      rcases List.mem_cons.mp hb2 with rfl | hb3
      · exact le_of_not_le h
      · exact hs.1 b hb3

/-- Auxiliary: insertion sort sorts. -/
theorem sortNat_sorted : ∀ l : List ℕ, List.Sorted (· ≤ ·) (sortNat l) := by
  intro l
  induction l with
  | nil => simp [sortNat]
  | cons x xs ih => exact insertSorted_sorted x (sortNat xs) ih

/-- Auxiliary: a window holding exactly the two values `a < b` has
`np.unique` equal to `[a, b]`. -/
theorem uniqueSorted_pair (l : List ℕ) (a b : ℕ) (hab : a < b)
    (hmem : ∀ x ∈ l, x = a ∨ x = b) (hma : a ∈ l) (hmb : b ∈ l) :
    uniqueSorted l = [a, b] := by
  have hperm2 : List.Perm l.dedup [a, b] := by
    rw [List.perm_ext_iff_of_nodup (List.nodup_dedup l) (by simp [hab.ne])]
    intro x
    rw [List.mem_dedup]
    constructor
    · intro hx
      rcases hmem x hx with rfl | rfl <;> simp
    · intro hx
      rcases List.mem_cons.mp hx with rfl | hx2
      · exact hma
      · rw [List.mem_singleton] at hx2
        exact hx2 ▸ hmb
  exact List.eq_of_perm_of_sorted ((sortNat_perm _).trans hperm2) (sortNat_sorted _)
    (by simp [List.sorted_cons, hab.le])

/-- Auxiliary: a list whose members all equal `a` or `b` (with `a ≠ b`) has
length `count a + count b`. -/
theorem count_two_values (a b : ℕ) (hne : a ≠ b) :
    ∀ l : List ℕ, (∀ x ∈ l, x = a ∨ x = b) → l.length = l.count a + l.count b := by
  intro l
  induction l with
  | nil => intro _; simp
  | cons x t ih =>
    intro h
    have hx := h x (List.mem_cons_self x t)
    have ht := fun y hy => h y (List.mem_cons_of_mem x hy)
    rcases hx with rfl | rfl
    · rw [List.length_cons, ih ht, List.count_cons_self, List.count_cons_of_ne (Ne.symm hne)]
      omega
    · rw [List.length_cons, ih ht, List.count_cons_of_ne hne, List.count_cons_self]
      omega

/-- C9 (counterexample): for the window `[0, 1]`, split exactly half-and-half
between modules 0 and 1, the consensus is the lower index 0 and no error is
possible, but the diagnostic flag is `false` — the claimed note is *not*
emitted, because the source only warns when the majority share is strictly
below 50%. -/
theorem c9_counterexample :
    (([0, 1] : List ℕ).count 0 = ([0, 1] : List ℕ).count 1)
    ∧ consensusOf [0, 1] = 0 ∧ warnOf [0, 1] = false := by decide

/-- C9 (amended): a gene split exactly half-and-half between modules `a < b`
resolves deterministically to the lower index `a` and raises no error, but no
diagnostic is emitted: the warning condition `max(counts)/T < 0.5` is false at
an exact tie. -/
theorem c9_tie_to_lowest (l : List ℕ) (a b : ℕ) (hab : a < b)
    (hmem : ∀ x ∈ l, x = a ∨ x = b) (hma : a ∈ l) (hmb : b ∈ l)
    (hc : l.count a = l.count b) :
    consensusOf l = a ∧ warnOf l = false := by
  have hu : uniqueSorted l = [a, b] := uniqueSorted_pair l a b hab hmem hma hmb
  have hlen2 : l.length = l.count a + l.count b := count_two_values a b hab.ne l hmem
  constructor
  · rw [consensusOf, hu]
    rw [if_neg (by simp)]
    simp only [List.map_cons, List.map_nil, pickMax, hc]
    simp
  · have hmax : maxCountOf l = l.count b := by
      rw [maxCountOf, hu]
      simp [listMaxD, hc]
    have hlt : ¬(2 * maxCountOf l < l.length) := by
      rw [hmax, hlen2, hc]
      omega
    rw [warnOf, decide_eq_false hlt, Bool.and_false]

/-- C9 (witness): the amended theorem evaluated on the half-and-half window
`[0, 1, 0, 1]`. -/
theorem c9_tie_to_lowest_witness :
    consensusOf [0, 1, 0, 1] = 0 ∧ warnOf [0, 1, 0, 1] = false :=
  c9_tie_to_lowest [0, 1, 0, 1] 0 1 (by decide) (by decide) (by decide) (by decide)
    (by decide)

/-- Auxiliary: the module-size component of `apply_changes`, unfolded. -/
theorem apply_changes_moduleSizes {K N : ℕ} (G : Fin K → Fin N → ℤ) (alpha beta_K : ℝ)
    (s : MState K N) (g new curr : Fin K) (b : Bool) :
    (apply_changes G alpha beta_K s g new curr b).moduleSizes
      = fun m =>
          if m = new then (if m = curr then s.moduleSizes m - 1 else s.moduleSizes m) + 1
          else if m = curr then s.moduleSizes m - 1 else s.moduleSizes m := rfl

/-- Auxiliary: the label component of `apply_changes`, unfolded. -/
theorem apply_changes_gene2Module {K N : ℕ} (G : Fin K → Fin N → ℤ) (alpha beta_K : ℝ)
    (s : MState K N) (g new curr : Fin K) (b : Bool) :
    (apply_changes G alpha beta_K s g new curr b).gene2Module
      = fun i => if i = g then new else s.gene2Module i := rfl

/-- Auxiliary: the one-count component of `apply_changes`, unfolded. -/
theorem apply_changes_nOnes {K N : ℕ} (G : Fin K → Fin N → ℤ) (alpha beta_K : ℝ)
    (s : MState K N) (g new curr : Fin K) (b : Bool) :
    (apply_changes G alpha beta_K s g new curr b).nOnes
      = fun m smp =>
          if m = new then
            (if m = curr then s.nOnes m smp - G g smp else s.nOnes m smp) + G g smp
          else if m = curr then s.nOnes m smp - G g smp else s.nOnes m smp := rfl

/-- Auxiliary: `apply_changes` with `calc_LPs=False` leaves `LP` untouched. -/
theorem apply_changes_LP_false {K N : ℕ} (G : Fin K → Fin N → ℤ) (alpha beta_K : ℝ)
    (s : MState K N) (g new curr : Fin K) :
    (apply_changes G alpha beta_K s g new curr false).LP = s.LP := rfl

/-- Auxiliary: `apply_changes` with `calc_LPs=True` rewrites the two affected
columns from the updated aggregates, except the moved gene's own entries. -/
theorem apply_changes_LP_true {K N : ℕ} (G : Fin K → Fin N → ℤ) (alpha beta_K : ℝ)
    (s : MState K N) (g new curr : Fin K) :
    (apply_changes G alpha beta_K s g new curr true).LP
      = fun i j =>
          if j = new ∧ i ≠ g then
            calc_lp_column G alpha beta_K new
              (apply_changes G alpha beta_K s g new curr true).nOnes
              (apply_changes G alpha beta_K s g new curr true).moduleSizes i
          else if j = curr ∧ i ≠ g then
            calc_lp_column G alpha beta_K curr
              (apply_changes G alpha beta_K s g new curr true).nOnes
              (apply_changes G alpha beta_K s g new curr true).moduleSizes i
          else s.LP i j := rfl

/-- C2: for every state reachable during sampling or consensus reconciliation,
the module sizes sum to the gene count `K` — the per-move `apply_changes`
decrement/increment conserves the total, and the initial sizes are all one. -/
theorem c2_sum_module_sizes {K N : ℕ} (G : Fin K → Fin N → ℤ) (alpha beta_K : ℝ)
    (s : MState K N) (hs : Reach G alpha beta_K s) :
    ∑ m, s.moduleSizes m = (K : ℤ) := by
  have hstep : ∀ (t : MState K N) (g new curr : Fin K) (b : Bool),
      ∑ m, (apply_changes G alpha beta_K t g new curr b).moduleSizes m
        = ∑ m, t.moduleSizes m := by
    intro t g new curr b
    rw [apply_changes_moduleSizes]
    have hterm : ∀ m : Fin K,
        (if m = new then (if m = curr then t.moduleSizes m - 1 else t.moduleSizes m) + 1
         else if m = curr then t.moduleSizes m - 1 else t.moduleSizes m)
          = t.moduleSizes m + ((if m = new then 1 else 0) + (if m = curr then -1 else 0)) := by
      intro m
      split_ifs <;> ring
    rw [Finset.sum_congr rfl fun m _ => hterm m]
    rw [Finset.sum_add_distrib, Finset.sum_add_distrib]
    rw [Finset.sum_ite_eq' Finset.univ new fun _ => (1 : ℤ)]
    rw [Finset.sum_ite_eq' Finset.univ curr fun _ => (-1 : ℤ)]
    simp
  induction hs with
  | init =>
    show ∑ _m : Fin K, (1 : ℤ) = (K : ℤ)
    simp [mul_one]
  | step t ht g new hne ih => rw [hstep]; exact ih
  | cstep t ht g new curr ih => rw [hstep]; exact ih

/-- C2 (witness): the invariant evaluated at the initial state of the concrete
2-gene system. -/
theorem c2_sum_module_sizes_witness :
    ∑ m, (initialState Gc (2 : ℝ) 1).moduleSizes m = ((2 : ℕ) : ℤ) :=
  c2_sum_module_sizes Gc 2 1 (initialState Gc 2 1) Reach.init

/-- C10: the batched column agrees with the single-pair form at every gene:
at `g ≠ m` the two compute the identical expression (for a binary indicator
matrix the masked sum equals the dot product), and the entry at the module's
own index is overwritten with exactly `calc_lp(m, m, ...)`. -/
theorem c10_column_agrees {K N : ℕ} (G : Fin K → Fin N → ℤ) (alpha beta_K : ℝ)
    (hbin : ∀ g s, G g s = 0 ∨ G g s = 1)
    (nOnes : Fin K → Fin N → ℤ) (sizes : Fin K → ℤ) (g m : Fin K) :
    calc_lp_column G alpha beta_K m nOnes sizes g = calc_lp G alpha beta_K g m nOnes sizes := by
  by_cases h0 : sizes m = 0
  · simp [calc_lp_column, calc_lp, h0]
  · by_cases hgm : g = m
    · subst hgm
      simp [calc_lp_column, h0]
    · by_cases h1 : sizes m = 1
      · have hsum : (∑ s, G g s * nOnes m s) = ∑ s, if G g s = 1 then nOnes m s else 0 := by
          apply Finset.sum_congr rfl
          intro s _
          rcases hbin g s with h | h <;> simp [h]
        simp only [calc_lp_column, calc_lp, lpSingleGene]
        rw [if_neg h0, if_neg h0, if_neg hgm, if_neg hgm, if_pos h1, if_pos h1, hsum]
        rw [if_neg h0]
      · simp [calc_lp_column, calc_lp, h0, h1, hgm]

/-- C10 (witness): the equivalence evaluated at the concrete initial
aggregates of `Gc`, gene 0 against module 1. -/
theorem c10_column_agrees_witness :
    calc_lp_column Gc 2 1 1 Gc (fun _ => 1) 0 = calc_lp Gc 2 1 0 1 Gc (fun _ => 1) :=
  c10_column_agrees Gc 2 1 (by decide) Gc (fun _ => 1) 0 1

/-- Auxiliary: a left fold of `max` lands on its seed or one of the folded
elements. -/
theorem foldl_max_mem {A : Type} [LinearOrder A] :
    ∀ (xs : List A) (x : A), xs.foldl max x ∈ x :: xs := by
  intro xs
  induction xs with
  | nil => intro x; simp
  | cons y ys ih =>
    intro x
    rw [List.foldl_cons]
    rcases List.mem_cons.mp (ih (max x y)) with h | h
    · rw [h]
      rcases max_choice x y with hm | hm <;> rw [hm]
      · exact List.mem_cons_self _ _
      · exact List.mem_cons_of_mem _ (List.mem_cons_self _ _)
    · exact List.mem_cons_of_mem _ (List.mem_cons_of_mem _ h)

/-- Auxiliary: a left fold of `max` bounds its seed and all folded elements. -/
theorem le_foldl_max {A : Type} [LinearOrder A] :
    ∀ (xs : List A) (x y : A), y ∈ x :: xs → y ≤ xs.foldl max x := by
  intro xs
  induction xs with
  | nil =>
    intro x y hy
    rcases List.mem_cons.mp hy with rfl | h
    · simp
    · simp at h
  | cons z zs ih =>
    intro x y hy
    rw [List.foldl_cons]
    rcases List.mem_cons.mp hy with rfl | h
    · exact le_trans (le_max_left y z) (ih (max y z) (max y z) (List.mem_cons_self _ _))
    · rcases List.mem_cons.mp h with rfl | h2
      · exact le_trans (le_max_right x y) (ih (max x y) (max x y) (List.mem_cons_self _ _))
      · exact ih (max x z) y (List.mem_cons_of_mem _ h2)

/-- Auxiliary: Python `max` of a nonempty list is one of its elements. -/
theorem listMaxD_mem {A : Type} [LinearOrder A] (d : A) (l : List A) (h : l ≠ []) :
    listMaxD d l ∈ l := by
  cases l with
  | nil => exact absurd rfl h
  | cons x xs => exact foldl_max_mem xs x

/-- Auxiliary: Python `max` of a list bounds every element. -/
theorem le_listMaxD {A : Type} [LinearOrder A] (d : A) (l : List A) (y : A) (hy : y ∈ l) :
    y ≤ listMaxD d l := by
  cases l with
  | nil => simp at hy
  | cons x xs => exact le_foldl_max xs x y hy

/-- Auxiliary: indexing through `List.map`. -/
theorem get_map_aux {A B : Type} (f : A → B) :
    ∀ (l : List A) (i : ℕ) (h1 : i < l.length) (h2 : i < (l.map f).length),
      (l.map f).get ⟨i, h2⟩ = f (l.get ⟨i, h1⟩) := by
  intro l
  induction l with
  | nil => intro i h1 _; exact absurd h1 (by simp)
  | cons x xs ih =>
    intro i h1 h2
    cases i with
    | zero => rfl
    | succ n =>
      exact ih n (Nat.lt_of_succ_lt_succ h1) (Nat.lt_of_succ_lt_succ (by simpa using h2))

/-- Auxiliary: dividing every element before summing divides the sum. -/
theorem sum_map_div (l : List ℝ) (c : ℝ) :
    (l.map fun x => x / c).sum = l.sum / c := by
  induction l with
  | nil => simp
  | cons x xs ih => simp [ih, add_div]

/-- Auxiliary: `adjust_lp` at cutoff 7 is the normalization of `adjProbs`. -/
theorem adjust_lp_eq_adjProbs (l : List ℝ) :
    adjust_lp l 7 = (adjProbs l).map fun x => x / (adjProbs l).sum := rfl

/-- Auxiliary: every pre-normalization entry is non-negative. -/
theorem adjProbs_nonneg (l : List ℝ) : ∀ x ∈ adjProbs l, 0 ≤ x := by
  intro x hx
  rcases List.mem_map.mp hx with ⟨y, _, rfl⟩
  by_cases hc : -(7 : ℝ) ≤ y - listMaxD 0 l
  · rw [if_pos hc]
    exact (Real.exp_pos _).le
  · rw [if_neg hc]

/-- Auxiliary: the pre-normalization sum is at least one (the row maximum
survives the cutoff and contributes `exp 0 = 1`). -/
theorem one_le_adjProbs_sum (l : List ℝ) (h : l ≠ []) : 1 ≤ (adjProbs l).sum := by
  have hmem : (if -(7 : ℝ) ≤ listMaxD 0 l - listMaxD 0 l then
      Real.exp (listMaxD 0 l - listMaxD 0 l) else 0) ∈ adjProbs l :=
    List.mem_map_of_mem _ (listMaxD_mem 0 l h)
  have hval : (if -(7 : ℝ) ≤ listMaxD 0 l - listMaxD 0 l then
      Real.exp (listMaxD 0 l - listMaxD 0 l) else 0) = 1 := by
    rw [if_pos (by norm_num), sub_self, Real.exp_zero]
  rw [hval] at hmem
  exact List.single_le_sum (adjProbs_nonneg l) 1 hmem

/-- C7: for every non-empty row of log-affinities, the normalized sampling
distribution has the row's length, is entrywise non-negative, sums to one,
zeroes exactly the entries more than 7 natural-log units below the row
maximum, and keeps the entry at the row maximum strictly positive (so the
renormalizing division is never by zero). -/
theorem c7_adjust_lp_distribution (l : List ℝ) (h : l ≠ []) :
    (adjust_lp l 7).length = l.length
    ∧ (∀ x ∈ adjust_lp l 7, 0 ≤ x)
    ∧ (adjust_lp l 7).sum = 1
    ∧ (∀ (i : ℕ) (hi : i < l.length) (hi2 : i < (adjust_lp l 7).length),
        l.get ⟨i, hi⟩ < listMaxD 0 l - 7 → (adjust_lp l 7).get ⟨i, hi2⟩ = 0)
    ∧ ∃ (j : ℕ) (hj : j < l.length) (hj2 : j < (adjust_lp l 7).length),
        l.get ⟨j, hj⟩ = listMaxD 0 l ∧ 0 < (adjust_lp l 7).get ⟨j, hj2⟩ := by
  have hSpos : 0 < (adjProbs l).sum := lt_of_lt_of_le one_pos (one_le_adjProbs_sum l h)
  have hlen : (adjust_lp l 7).length = l.length := by
    rw [adjust_lp_eq_adjProbs, List.length_map, adjProbs, List.length_map]
  have hlenp : ∀ i : ℕ, i < l.length → i < (adjProbs l).length := by
    intro i hi
    rw [adjProbs, List.length_map]
    exact hi
  have hget : ∀ (i : ℕ) (hi : i < l.length) (hi2 : i < (adjust_lp l 7).length),
      (adjust_lp l 7).get ⟨i, hi2⟩
        = (if -(7 : ℝ) ≤ l.get ⟨i, hi⟩ - listMaxD 0 l then
            Real.exp (l.get ⟨i, hi⟩ - listMaxD 0 l) else 0) / (adjProbs l).sum := by
    intro i hi hi2
    have hi3 : i < (adjProbs l).length := hlenp i hi
    have e1 : (adjust_lp l 7).get ⟨i, hi2⟩
        = (adjProbs l).get ⟨i, hi3⟩ / (adjProbs l).sum :=
      get_map_aux (fun x => x / (adjProbs l).sum) (adjProbs l) i hi3 hi2
    have e2 : (adjProbs l).get ⟨i, hi3⟩
        = if -(7 : ℝ) ≤ l.get ⟨i, hi⟩ - listMaxD 0 l then
            Real.exp (l.get ⟨i, hi⟩ - listMaxD 0 l) else 0 :=
      get_map_aux _ l i hi hi3
    rw [e1, e2]
  refine ⟨hlen, ?_, ?_, ?_, ?_⟩
  · intro x hx
    rw [adjust_lp_eq_adjProbs] at hx
    rcases List.mem_map.mp hx with ⟨y, hy, rfl⟩
    exact div_nonneg (adjProbs_nonneg l y hy) hSpos.le
  · rw [adjust_lp_eq_adjProbs, sum_map_div, div_self (ne_of_gt hSpos)]
  · intro i hi hi2 hlt
    rw [hget i hi hi2, if_neg (by linarith), zero_div]
  · obtain ⟨⟨j, hj⟩, hjeq⟩ := List.mem_iff_get.mp (listMaxD_mem 0 l h)
    refine ⟨j, hj, by rw [hlen]; exact hj, hjeq, ?_⟩
    rw [hget j hj (by rw [hlen]; exact hj), hjeq, if_pos (by norm_num), sub_self,
      Real.exp_zero]
    exact div_pos one_pos hSpos

/-- C7 (witness): the normalization properties evaluated on the concrete row
`[0, -10]` (whose second entry falls below the cutoff). -/
theorem c7_adjust_lp_distribution_witness :
    (adjust_lp [0, -10] 7).length = ([0, -10] : List ℝ).length
    ∧ (∀ x ∈ adjust_lp [0, -10] 7, 0 ≤ x)
    ∧ (adjust_lp [0, -10] 7).sum = 1
    ∧ (∀ (i : ℕ) (hi : i < ([0, -10] : List ℝ).length)
        (hi2 : i < (adjust_lp [0, -10] 7).length),
        ([0, -10] : List ℝ).get ⟨i, hi⟩ < listMaxD 0 [0, -10] - 7 →
          (adjust_lp [0, -10] 7).get ⟨i, hi2⟩ = 0)
    ∧ ∃ (j : ℕ) (hj : j < ([0, -10] : List ℝ).length)
        (hj2 : j < (adjust_lp [0, -10] 7).length),
        ([0, -10] : List ℝ).get ⟨j, hj⟩ = listMaxD 0 [0, -10]
          ∧ 0 < (adjust_lp [0, -10] 7).get ⟨j, hj2⟩ :=
  c7_adjust_lp_distribution [0, -10] (by simp)

/-- Auxiliary: a duplicate-free list of a single repeated value has at most
one element. -/
theorem nodup_allEq_length {A : Type} (l : List A) (c : A) (hnd : l.Nodup)
    (h : ∀ x ∈ l, x = c) : l.length ≤ 1 := by
  cases l with
  | nil => simp
  | cons x t =>
    cases t with
    | nil => simp
    | cons y u =>
      exfalso
      have hx : x = c := h x (by simp)
      have hy : y = c := h y (by simp)
      rw [List.nodup_cons] at hnd
      exact hnd.1 (by rw [hx, ← hy]; simp)

/-- Auxiliary: folding `max` over copies of the seed returns the seed. -/
theorem foldl_max_allEq {A : Type} [LinearOrder A] :
    ∀ (xs : List A) (c : A), (∀ x ∈ xs, x = c) → xs.foldl max c = c := by
  intro xs
  induction xs with
  | nil => intro c _; rfl
  | cons y ys ih =>
    intro c h
    rw [List.foldl_cons, h y (List.mem_cons_self _ _), max_self]
    exact ih c fun x hx => h x (List.mem_cons_of_mem _ hx)

/-- Auxiliary: folding `min` over copies of the seed returns the seed. -/
theorem foldl_min_allEq {A : Type} [LinearOrder A] :
    ∀ (xs : List A) (c : A), (∀ x ∈ xs, x = c) → xs.foldl min c = c := by
  intro xs
  induction xs with
  | nil => intro c _; rfl
  | cons y ys ih =>
    intro c h
    rw [List.foldl_cons, h y (List.mem_cons_self _ _), min_self]
    exact ih c fun x hx => h x (List.mem_cons_of_mem _ hx)

/-- Auxiliary: Python `max` of a nonempty constant list is that constant. -/
theorem listMaxD_allEq {A : Type} [LinearOrder A] (d c : A) (l : List A)
    (hne : l ≠ []) (h : ∀ x ∈ l, x = c) : listMaxD d l = c := by
  cases l with
  | nil => exact absurd rfl hne
  | cons x xs =>
    rw [listMaxD, h x (List.mem_cons_self _ _)]
    exact foldl_max_allEq xs c fun y hy => h y (List.mem_cons_of_mem _ hy)

/-- Auxiliary: Python `min` of a nonempty constant list is that constant. -/
theorem listMinD_allEq {A : Type} [LinearOrder A] (d c : A) (l : List A)
    (hne : l ≠ []) (h : ∀ x ∈ l, x = c) : listMinD d l = c := by
  cases l with
  | nil => exact absurd rfl hne
  | cons x xs =>
    rw [listMinD, h x (List.mem_cons_self _ _)]
    exact foldl_min_allEq xs c fun y hy => h y (List.mem_cons_of_mem _ hy)

/-- C8: for a history in which every gene's label is constant, every trailing
window (a contiguous slice of the history) contributes zero skipping edges,
so the recorded skipping-edge counts are all zero and their observed maximum
equals their observed minimum — i.e. the denominator `se_max - se_min` of the
rescaling step `(counts - se_min)/(se_max - se_min)` in
`check_convergence_conditions` is exactly zero (the `0/0` that poisons the
fitted slope). -/
theorem c8_constant_history (Kn : ℕ) (labels : List (List ℕ))
    (hconst : ∀ g, ∃ c, ∀ row ∈ labels, row.getD g 0 = c) :
    (∀ lo n, nSkippingEdges Kn ((labels.drop lo).take n) = 0)
    ∧ ∀ ws : List (List (List ℕ)), ws ≠ [] →
        (∀ w ∈ ws, ∃ lo n, w = (labels.drop lo).take n) →
        listMaxD 0 (ws.map fun w => nSkippingEdges Kn w)
          = listMinD 0 (ws.map fun w => nSkippingEdges Kn w) := by
  have hone : ∀ lo n g, ¬(isSkipping ((labels.drop lo).take n) g = true) := by
    intro lo n g
    obtain ⟨c, hc⟩ := hconst g
    have hcol : ∀ x ∈ columnOf ((labels.drop lo).take n) g, x = c := by
      intro x hx
      rcases List.mem_map.mp hx with ⟨row, hrow, rfl⟩
      exact hc row (List.drop_subset lo labels (List.take_subset n _ hrow))
    have hnd : (columnOf ((labels.drop lo).take n) g).dedup.length ≤ 1 :=
      nodup_allEq_length _ c (List.nodup_dedup _)
        fun x hx => hcol x ((List.mem_dedup).mp hx)
    rw [isSkipping]
    simp only [decide_eq_true_eq]
    omega
  have hzero : ∀ lo n, nSkippingEdges Kn ((labels.drop lo).take n) = 0 := by
    intro lo n
    rw [nSkippingEdges, List.length_eq_zero, List.filter_eq_nil_iff]
    intro g _
    exact hone lo n g
  refine ⟨hzero, ?_⟩
  intro ws hne hws
  have hmap : ∀ x ∈ ws.map fun w => nSkippingEdges Kn w, x = 0 := by
    intro x hx
    rcases List.mem_map.mp hx with ⟨w, hw, rfl⟩
    obtain ⟨lo, n, rfl⟩ := hws w hw
    exact hzero lo n
  have hne2 : (ws.map fun w => nSkippingEdges Kn w) ≠ [] := by
    intro hcontra
    exact hne (List.map_eq_nil_iff.mp hcontra)
  rw [listMaxD_allEq 0 0 _ hne2 hmap, listMinD_allEq 0 0 _ hne2 hmap]

/-- C8 (witness): the theorem applied to the concrete constant two-gene
history `[[0, 1], [0, 1]]`. -/
theorem c8_constant_history_witness :
    (∀ lo n, nSkippingEdges 2 ((([[0, 1], [0, 1]] : List (List ℕ)).drop lo).take n) = 0)
    ∧ ∀ ws : List (List (List ℕ)), ws ≠ [] →
        (∀ w ∈ ws, ∃ lo n, w = (([[0, 1], [0, 1]] : List (List ℕ)).drop lo).take n) →
        listMaxD 0 (ws.map fun w => nSkippingEdges 2 w)
          = listMinD 0 (ws.map fun w => nSkippingEdges 2 w) := by
  apply c8_constant_history 2 [[0, 1], [0, 1]]
  intro g
  rcases g with _ | g1
  · exact ⟨0, by decide⟩
  rcases g1 with _ | n
  · exact ⟨1, by decide⟩
  refine ⟨0, ?_⟩
  intro row hr
  have hrow : row = [0, 1] := by
    rcases List.mem_cons.mp hr with h | h
    · exact h
    · rcases List.mem_cons.mp h with h2 | h2
      · exact h2
      · simp at h2
  rw [hrow]
  rfl

/-- Auxiliary: an `if` on a commuted equality test. -/
theorem ite_eq_comm {A : Type} [DecidableEq A] (a b : A) (x y : ℤ) :
    (if a = b then x else y) = if b = a then x else y := by
  by_cases h : a = b
  · rw [if_pos h, if_pos h.symm]
  · rw [if_neg h, if_neg fun hh => h hh.symm]

/-- Auxiliary: `apply_changes` moves one unit of membership count from the
moved gene's old label to `new`. -/
theorem moduleCount_apply_changes {K N : ℕ} (G : Fin K → Fin N → ℤ) (alpha beta_K : ℝ)
    (t : MState K N) (g new curr : Fin K) (b : Bool) (m : Fin K) :
    moduleCount (apply_changes G alpha beta_K t g new curr b) m
      = moduleCount t m - (if m = t.gene2Module g then 1 else 0)
        + (if m = new then 1 else 0) := by
  rw [moduleCount, moduleCount, apply_changes_gene2Module]
  rw [← Finset.add_sum_erase Finset.univ
      (fun i => if (if i = g then new else t.gene2Module i) = m then (1 : ℤ) else 0)
      (Finset.mem_univ g)]
  rw [← Finset.add_sum_erase Finset.univ
      (fun i => if t.gene2Module i = m then (1 : ℤ) else 0) (Finset.mem_univ g)]
  have e1 : ∑ i ∈ Finset.univ.erase g,
        (if (if i = g then new else t.gene2Module i) = m then (1 : ℤ) else 0)
      = ∑ i ∈ Finset.univ.erase g, (if t.gene2Module i = m then (1 : ℤ) else 0) := by
    apply Finset.sum_congr rfl
    intro i hi
    rw [if_neg (Finset.mem_erase.mp hi).1]
  rw [e1]
  rw [show (if (if g = g then new else t.gene2Module g) = m then (1 : ℤ) else 0)
      = if new = m then 1 else 0 from by rw [if_pos rfl]]
  rw [ite_eq_comm new m, ite_eq_comm (t.gene2Module g) m]
  ring

/-- Auxiliary: the arithmetic shape of a one-gene move on sizes or counts. -/
theorem ite_move_eq (P Q : Prop) [Decidable P] [Decidable Q] (X : ℤ) :
    (if P then (if Q then X - 1 else X) + 1 else if Q then X - 1 else X)
      = X - (if Q then 1 else 0) + (if P then 1 else 0) := by
  by_cases hp : P <;> by_cases hq : Q <;>
    simp only [hp, hq, if_true, if_false] <;> ring

/-- Auxiliary (spec invariant): during sampling each module's recorded size is
the number of genes currently labelled with it. -/
theorem sreach_sizes_eq_count {K N : ℕ} (G : Fin K → Fin N → ℤ) (alpha beta_K : ℝ)
    (s : MState K N) (hs : SReach G alpha beta_K s) :
    ∀ m, s.moduleSizes m = moduleCount s m := by
  induction hs with
  | init =>
    intro m
    show (1 : ℤ) = moduleCount (initialState G alpha beta_K) m
    rw [moduleCount, show (initialState G alpha beta_K).gene2Module = fun i => i from rfl]
    rw [Finset.sum_ite_eq' Finset.univ m fun _ => (1 : ℤ)]
    simp
  | step t ht g new hne ih =>
    intro m
    rw [apply_changes_moduleSizes, moduleCount_apply_changes, ← ih m]
    exact ite_move_eq (m = new) (m = t.gene2Module g) (t.moduleSizes m)

/-- Auxiliary: module sizes stay non-negative during sampling. -/
theorem sreach_sizes_nonneg {K N : ℕ} (G : Fin K → Fin N → ℤ) (alpha beta_K : ℝ)
    (s : MState K N) (hs : SReach G alpha beta_K s) (m : Fin K) :
    0 ≤ s.moduleSizes m := by
  rw [sreach_sizes_eq_count G alpha beta_K s hs m, moduleCount]
  apply Finset.sum_nonneg
  intro i _
  by_cases h : s.gene2Module i = m
  · rw [if_pos h]; norm_num
  · rw [if_neg h]

/-- Auxiliary: pointwise form of the `LP` update of `apply_changes` with
`calc_LPs=True`. -/
theorem apply_changes_LP_entry {K N : ℕ} (G : Fin K → Fin N → ℤ) (alpha beta_K : ℝ)
    (s : MState K N) (g new curr i j : Fin K) :
    (apply_changes G alpha beta_K s g new curr true).LP i j
      = if j = new ∧ i ≠ g then
          calc_lp_column G alpha beta_K new
            (apply_changes G alpha beta_K s g new curr true).nOnes
            (apply_changes G alpha beta_K s g new curr true).moduleSizes i
        else if j = curr ∧ i ≠ g then
          calc_lp_column G alpha beta_K curr
            (apply_changes G alpha beta_K s g new curr true).nOnes
            (apply_changes G alpha beta_K s g new curr true).moduleSizes i
        else s.LP i j := rfl

/-- Auxiliary: `sA` (the state after gene 0's move to module 1) is reachable
during sampling. -/
theorem sA_reachable : SReach Gc 2 1 sA :=
  SReach.step sInit SReach.init 0 1 (by decide)

/-- Auxiliary: `sB` is reachable during sampling. -/
theorem sB_reachable : SReach Gc 2 1 sB :=
  SReach.step sA sA_reachable 1 0 (by decide)

/-- Auxiliary: `sC` (in which module 1 has been emptied by gene 0's return)
is reachable during sampling. -/
theorem sC_reachable : SReach Gc 2 1 sC :=
  SReach.step sB sB_reachable 0 0 (by decide)

/-- Auxiliary: gene 0's `LP` entry against module 1 is *not* refreshed by the
move that empties module 1 — it keeps its pre-move value (the `ndx_old_val`
restoration). -/
theorem sC_LP_01 : sC.LP 0 1 = sB.LP 0 1 := by
  rw [show sC = apply_changes Gc 2 1 sB 0 0 (sB.gene2Module 0) true from rfl]
  rw [apply_changes_LP_entry]
  rw [if_neg fun hand => hand.2 rfl, if_neg fun hand => hand.2 rfl]

/-- Auxiliary: the stale entry's concrete value, `log 2`. -/
theorem sB_LP_01 : sB.LP 0 1 = Real.log 2 := by
  have hA : sA.gene2Module 1 = 1 := by decide
  rw [show sB = apply_changes Gc 2 1 sA 1 0 (sA.gene2Module 1) true from rfl]
  rw [apply_changes_LP_entry]
  rw [if_neg fun hand => absurd hand.1 (by decide)]
  rw [if_pos ⟨hA.symm, by decide⟩]
  have hz1 : ¬((apply_changes Gc 2 1 sA 1 0 (sA.gene2Module 1) true).moduleSizes
      (sA.gene2Module 1) = 0) := by decide
  have hz2 : (apply_changes Gc 2 1 sA 1 0 (sA.gene2Module 1) true).moduleSizes
      (sA.gene2Module 1) = 1 := by decide
  have hdot : (∑ s : Fin 1, Gc 0 s *
      (apply_changes Gc 2 1 sA 1 0 (sA.gene2Module 1) true).nOnes
        (sA.gene2Module 1) s) = 1 := by decide
  rw [calc_lp_column]
  rw [if_neg hz1]
  rw [if_neg (show ¬(0 : Fin 2) = sA.gene2Module 1 by decide)]
  rw [if_pos hz2]
  rw [hdot, match_score, mismatch_score, bK_1]
  norm_num [Real.log_one]

/-- C4 (counterexample): the reachable state `sC` has module 1 empty, yet
`LP[0, 1]` — the entry of the very gene whose departure emptied the module —
equals `log 2`, not the baseline `p0 = 1*log(1/2) + log 1`: the restoration
of the moved gene's own entry in `apply_changes` leaves it stale. -/
theorem c4_counterexample :
    SReach Gc 2 1 sC ∧ sC.moduleSizes 1 = 0 ∧ sC.LP 0 1 ≠ p0 1 1 := by
  refine ⟨sC_reachable, by decide, ?_⟩
  rw [sC_LP_01, sB_LP_01, p0]
  intro hcontra
  rw [Real.log_one, Nat.cast_one, one_mul, add_zero] at hcontra
  have l2 : 0 < Real.log 2 := Real.log_pos (by norm_num)
  have lh : Real.log ((1 : ℝ)/2) < 0 := Real.log_neg (by norm_num) (by norm_num)
  linarith

/-- C4 (amended): at every state reachable during sampling, an empty module's
`LP` column is the baseline `p0` at every gene except possibly one — the gene
whose departure emptied the module, whose own entry `apply_changes`
deliberately restores to its pre-move value. -/
theorem c4_empty_module_baseline {K N : ℕ} (G : Fin K → Fin N → ℤ) (alpha beta_K : ℝ)
    (s : MState K N) (hs : SReach G alpha beta_K s) (m : Fin K)
    (hm : s.moduleSizes m = 0) :
    ∃ g0 : Fin K, ∀ i : Fin K, i ≠ g0 → s.LP i m = p0 N beta_K := by
  revert m
  induction hs with
  | init =>
    intro m hm
    have h1 : (1 : ℤ) = 0 := hm
    exact absurd h1 (by norm_num)
  | step t ht g new hne ih =>
    intro m hm
    simp only [apply_changes_moduleSizes] at hm
    by_cases hmn : m = new
    · exfalso
      rw [if_pos hmn] at hm
      have hcn : ¬m = t.gene2Module g := fun hh => hne (hmn ▸ hh)
      rw [if_neg hcn] at hm
      have hge := sreach_sizes_nonneg G alpha beta_K t ht m
      omega
    · rw [if_neg hmn] at hm
      by_cases hmc : m = t.gene2Module g
      · rw [if_pos hmc] at hm
        refine ⟨g, ?_⟩
        intro i hig
        rw [apply_changes_LP_entry]
        rw [if_neg fun hand => hmn hand.1]
        rw [if_pos ⟨hmc, hig⟩]
        have hz : (apply_changes G alpha beta_K t g new (t.gene2Module g) true).moduleSizes
            (t.gene2Module g) = 0 := by
          simp only [apply_changes_moduleSizes]
          rw [if_neg fun hh => hne hh.symm, if_pos trivial, ← hmc]
          exact hm
        rw [calc_lp_column, if_pos hz]
      · rw [if_neg hmc] at hm
        obtain ⟨g0, hg0⟩ := ih m hm
        refine ⟨g0, ?_⟩
        intro i hi
        rw [apply_changes_LP_entry]
        rw [if_neg fun hand => hmn hand.1, if_neg fun hand => hmc hand.1]
        exact hg0 i hi

/-- C4 (witness): the amended invariant applied at the reachable state `sC`,
whose module 1 is empty. -/
theorem c4_empty_module_baseline_witness :
    ∃ g0 : Fin 2, ∀ i : Fin 2, i ≠ g0 → sC.LP i 1 = p0 1 1 :=
  c4_empty_module_baseline Gc 2 1 sC sC_reachable 1 (by decide)

/-- C3 (counterexample): in the reachable state `sA`, gene 0 is currently
assigned to module 1 (its index differs from its module), yet
`calc_lp(0, 1, ...)` does *not* self-exclude: it evaluates the full-size
formula (`log(1/2) + log 3`), not the reduced-size value (`log(1/2) + log 2`)
the claim prescribes. -/
theorem c3_counterexample :
    SReach Gc 2 1 sA ∧ sA.gene2Module 0 = 1
    ∧ calc_lp Gc 2 1 0 1 sA.nOnes sA.moduleSizes
      ≠ affinity_excluding Gc 2 1 0 1 sA.nOnes sA.moduleSizes := by
  refine ⟨sA_reachable, by decide, ?_⟩
  have hsz : sA.moduleSizes 1 = 2 := by decide
  have hn : sA.nOnes 1 0 = 1 := by decide
  have hL : calc_lp Gc 2 1 0 1 sA.nOnes sA.moduleSizes
      = Real.log (1/2) + 0 + Real.log 3 := by
    rw [calc_lp]
    rw [if_neg (show ¬sA.moduleSizes 1 = 0 by rw [hsz]; norm_num)]
    rw [if_neg (show ¬(0 : Fin 2) = 1 by decide)]
    rw [if_neg (show ¬sA.moduleSizes 1 = 1 by rw [hsz]; norm_num)]
    rw [calc_lp_formula]
    rw [Fin.sum_univ_one, Fin.sum_univ_one]
    rw [if_pos (show Gc 0 0 = 1 by decide)]
    rw [if_neg (show ¬Gc 0 0 = 0 by decide)]
    rw [hn, hsz, oneRatio]
    norm_num
  have hR : affinity_excluding Gc 2 1 0 1 sA.nOnes sA.moduleSizes
      = Real.log (1/2) + Real.log 2 := by
    rw [affinity_excluding]
    rw [if_neg (show ¬(sA.moduleSizes 1 - 1 = 0) by rw [hsz]; norm_num)]
    rw [if_pos (show sA.moduleSizes 1 - 1 = 1 by rw [hsz]; norm_num)]
    rw [lpSingleGene]
    rw [Fin.sum_univ_one]
    rw [if_pos (show Gc 0 0 = 1 by decide)]
    rw [hn]
    rw [show Gc (0 : Fin 2) (0 : Fin 1) = (1 : ℤ) from by decide]
    rw [match_score, mismatch_score, bK_1]
    norm_num
  intro heq
  rw [hL, hR] at heq
  have hlt : Real.log 2 < Real.log 3 := Real.log_lt_log (by norm_num) (by norm_num)
  linarith

/-- C3 (amended): `calc_lp` applies self-exclusion exactly when the gene's
index equals the module's index: at `g = m` it computes the affinity with
`g`'s contribution removed (baseline if that empties the module), and at
`g ≠ m` it computes the plain affinity from the aggregates as they are, even
when `g` is currently assigned to `m`. -/
theorem c3_self_exclusion_by_index {K N : ℕ} (G : Fin K → Fin N → ℤ) (alpha beta_K : ℝ)
    (g m : Fin K) (nOnes : Fin K → Fin N → ℤ) (sizes : Fin K → ℤ) (h0 : sizes m ≠ 0) :
    calc_lp G alpha beta_K g m nOnes sizes
      = if g = m then affinity_excluding G alpha beta_K g m nOnes sizes
        else affinity_plain G alpha beta_K g m nOnes sizes := by
  by_cases hgm : g = m
  · rw [if_pos hgm, calc_lp, if_neg h0, if_pos hgm, affinity_excluding]
    by_cases h1 : sizes m = 1
    · rw [if_pos h1, if_pos (show sizes m - 1 = 0 by omega)]
    · rw [if_neg h1, if_neg (show ¬(sizes m - 1 = 0) by omega)]
  · rw [if_neg hgm, calc_lp, if_neg h0, if_neg hgm, affinity_plain, if_neg h0]

/-- C3 (witness): the amended characterization evaluated at the initial
aggregates of `Gc`, gene 0 against its own module 0. -/
theorem c3_self_exclusion_by_index_witness :
    calc_lp Gc 2 1 0 0 Gc (fun _ => 1)
      = if (0 : Fin 2) = 0 then affinity_excluding Gc 2 1 0 0 Gc (fun _ => 1)
        else affinity_plain Gc 2 1 0 0 Gc (fun _ => 1) :=
  c3_self_exclusion_by_index Gc 2 1 0 0 Gc (fun _ => 1) (by decide)

/-- Auxiliary: the consensus reconciliation never touches the affinity matrix
(`calc_LPs=False` throughout the loop). -/
theorem reconcile_LP {K N : ℕ} (G : Fin K → Fin N → ℤ) (alpha beta_K : ℝ)
    (hK : 0 < K) (c : Fin K → Fin K) (s : MState K N) :
    (reconcile G alpha beta_K hK c s).LP = s.LP := by
  rw [reconcile]
  generalize List.finRange K = l
  induction l generalizing s with
  | nil => rfl
  | cons m ms ih =>
    rw [List.foldl_cons]
    rw [ih]
    by_cases h : s.gene2Module m ≠ c m
    · rw [if_pos h, apply_changes_LP_false]
    · rw [if_neg h]

/-- C1: the reconciliation loop of `get_consensus_modules` does *not* apply
the aggregate update to the gene being reconciled.  On the concrete history
`histC` the majority consensus is `cC` (checked in the first conjunct), and
in the live state `sA` gene 0's module (1) differs from its consensus (0);
yet after the loop gene 0 still carries label 1, because line 570 passes the
stale loop variable `gene_ndx = K-1` instead of the loop index `m` to
`apply_changes`.  The affinity matrix is indeed left untouched (last
conjunct), as the claim states. -/
theorem c1_consensus_reconciliation_bug :
    (∀ g : Fin 2, (cC g : ℕ) = consensusOf (histC.map fun row => row.getD (g : ℕ) 0))
    ∧ sA.gene2Module 0 = 1 ∧ cC 0 = 0
    ∧ (reconcile Gc 2 1 (by decide) cC sA).gene2Module 0 = 1
    ∧ (reconcile Gc 2 1 (by decide) cC sA).LP = sA.LP := by
  refine ⟨by decide, by decide, by decide, by decide, ?_⟩
  exact reconcile_LP Gc 2 1 (by decide) cC sA
